import Mathlib

/-!
Verification of `sdr_model_comparison.py`.

Modelling conventions:
* Python floats are modelled as exact rationals (`ℚ`); every float value that
  occurs in the program (samples, weights, the guards `1e-7` and `1.01055`)
  is exactly representable, and float arithmetic is idealized as exact
  arithmetic, the same idealization the spec itself uses.
* `np.log10` is modelled as `Real.logb 10` on the rational value cast to `ℝ`;
  the SDR metric is therefore real-valued while all array bookkeeping stays
  executable.
* A 2-D numpy array (channels × samples) is a list of channel rows; a 3-D
  array (batch × channels × samples) is a list of such signals.
* `float('-inf')` used by `main` to seed the best-average search is `⊥` in
  `WithBot ℚ`.
* `scipy.signal` filtering (`lr_filter`'s interior) is an external
  collaborator; `process_track` takes the filter as a function argument.
* File I/O is external: `process_track` receives the decoded signals and
  sample rates that `soundfile.read` would return (already transposed to
  channels × samples, as the script does with `.T`).
-/

namespace SdrModelComparison

/-- A 2-D signal: list of channel rows, each a list of samples. -/
abbrev Sig : Type := List (List ℚ)

/-- The additive guard `delta = 1e-7` from `sdr`. -/
def delta : ℚ := 1e-7

/-- Elementwise square of a 2-D array (`np.square`). -/
def sq2 (x : Sig) : Sig := x.map (List.map (fun v => v ^ 2))

/-- Sum of all entries of a 2-D array: `np.sum(·, axis=(1, 2))` restricted to
one batch element. -/
def sum2 (x : Sig) : ℚ := (x.map List.sum).sum

/-- Elementwise difference of two equal-shaped 2-D arrays. -/
def sub2 (x y : Sig) : Sig := List.zipWith (List.zipWith (fun a b => a - b)) x y

/-- `sdr(references, estimates)`: per batch element,
`10 * log10((Σ ref² + delta) / (Σ (ref − est)² + delta))`, the sums running
over the channel and sample axes. -/
noncomputable def sdr (references estimates : List Sig) : List ℝ :=
  let num := references.map (fun r => sum2 (sq2 r))
  let den := (List.zipWith sub2 references estimates).map (fun d => sum2 (sq2 d))
  let num2 := num.map (fun v => v + delta)
  let den2 := den.map (fun v => v + delta)
  List.zipWith (fun n d => 10 * Real.logb 10 ((n / d : ℚ) : ℝ)) num2 den2

/-- `x.shape[1]` of a rectangular 2-D array in the list model: the length of
the first channel row (0 for an empty array). -/
def shape1 (x : Sig) : ℕ :=
  match x with
  | [] => 0
  | r :: _ => r.length

/-- `get_sdr(original_signal, model_signal)`: trim both 2-D signals to the
shorter sample count, wrap each as a singleton batch and call `sdr`. -/
noncomputable def get_sdr (original_signal model_signal : Sig) : List ℝ :=
  let min_length := min (shape1 original_signal) (shape1 model_signal)
  let original_signal_trimmed := original_signal.map (List.take min_length)
  let model_signal_trimmed := model_signal.map (List.take min_length)
  sdr [original_signal_trimmed] [model_signal_trimmed]

/-- The two filter kinds accepted by `lr_filter`. -/
inductive FilterKind
  | lowpass
  | highpass

/-- Scalar multiple of a 2-D signal (numpy broadcasting `w * x`). -/
def scale (c : ℚ) (x : Sig) : Sig := x.map (List.map (fun v => c * v))

/-- Division of a 2-D signal by a scalar (numpy broadcasting `x / c`). -/
def divc (x : Sig) (c : ℚ) : Sig := x.map (List.map (fun v => v / c))

/-- Multiplication of a 2-D signal by a scalar on the right (`x * c`). -/
def mulc (x : Sig) (c : ℚ) : Sig := x.map (List.map (fun v => v * c))

/-- Elementwise sum of two equal-shaped 2-D signals. -/
def add2 (x y : Sig) : Sig := List.zipWith (List.zipWith (fun a b => a + b)) x y

/-- `process_track` after the I/O collaborator has run: takes the external
filter `lr_filter` as a function, the decoded original stems with their
sample rates, the decoded model outputs with their sample rates, and the
weight grid.  Mirrors the script: build the (unused) original mix, collect
all sample rates, fail with the ascending list of distinct rates when they
disagree (`sorted(set(srs))`), otherwise produce, for every weight pair,
`(w1, w2, get_sdr(original_vocals, lowpassed_blend * 1.01055 + highpassed_B)[0])`. -/
noncomputable def process_track (lr_filter : Sig → ℚ → FilterKind → ℕ → Sig)
    (original_vocals original_other : Sig) (sr1 sr2 : ℕ)
    (models : List (Sig × ℕ)) (weight_combinations : List (ℚ × ℚ)) :
    Except (List ℕ) (List (ℚ × ℚ × ℝ)) :=
  let _original_mix := add2 original_vocals original_other
  let model_signals := models.map Prod.fst
  let srs := sr1 :: sr2 :: models.map Prod.snd
  if 1 < srs.dedup.length then
    Except.error (List.insertionSort (· ≤ ·) srs.dedup)
  else
    Except.ok (weight_combinations.map (fun p =>
      let w1 := p.1
      let w2 := p.2
      let ms0 := model_signals.getD 0 []
      let ms1 := model_signals.getD 1 []
      let vocals_low :=
        mulc (lr_filter (divc (add2 (scale w1 ms0) (scale w2 ms1)) (w1 + w2))
          10000 FilterKind.lowpass sr1) 1.01055
      let vocals_high := lr_filter ms1 10000 FilterKind.highpass sr1
      let summ_vocals := add2 vocals_low vocals_high
      (p.1, p.2, (get_sdr original_vocals summ_vocals).headD 0)))

/-- `np.arange(start, stop, step)` over exact rationals: the values
`start + i * step` for `0 ≤ i < ⌈(stop − start) / step⌉`. -/
def arange (start stop step : ℚ) : List ℚ :=
  (List.range (Int.toNat ⌈(stop - start) / step⌉)).map (fun i => start + (i : ℚ) * step)

/-- `weight_step = 1.0` from `main`. -/
def weight_step : ℚ := 1

/-- The weight grid from `main`:
`[(w, 10 − w) for w in np.arange(0, 10 + weight_step, weight_step)]`. -/
def weight_combinations : List (ℚ × ℚ) :=
  (arange 0 (10 + weight_step) weight_step).map (fun w => (w, 10 - w))

/-- The grouping key of one SDR observation `(first_val, second_val, sdr)`. -/
def obsKey (o : ℚ × ℚ × ℚ) : ℚ × ℚ := (o.1, o.2.1)

/-- The SDR value of one observation. -/
def obsVal (o : ℚ × ℚ × ℚ) : ℚ := o.2.2

/-- Lookup of the (first) entry for a key in the insertion-ordered grouping
map; models Python's `(first_val, second_val) in avg_sdr_per_weight` and
`avg_sdr_per_weight[k]`. -/
def findGroup (k : ℚ × ℚ) (m : List ((ℚ × ℚ) × List ℚ)) :
    Option ((ℚ × ℚ) × List ℚ) :=
  m.find? (fun g => decide (g.1 = k))

/-- One step of the accumulation loop of `main`: append `v` to the entry for
`k`, creating the entry at the end of the map when the key is new —
exactly the insertion-order behaviour of a Python dict. -/
def addObs (m : List ((ℚ × ℚ) × List ℚ)) (k : ℚ × ℚ) (v : ℚ) :
    List ((ℚ × ℚ) × List ℚ) :=
  if (findGroup k m).isSome then
    m.map (fun g => if g.1 = k then (g.1, g.2 ++ [v]) else g)
  else
    m ++ [(k, [v])]

/-- The grouping map `avg_sdr_per_weight` built from all collected
observations, in collection order. -/
def groupObs (obs : List (ℚ × ℚ × ℚ)) : List ((ℚ × ℚ) × List ℚ) :=
  obs.foldl (fun m o => addObs m (obsKey o) (obsVal o)) []

/-- `sum(sdr_values) / len(sdr_values)` for one grouping-map entry. -/
def groupAvg (g : (ℚ × ℚ) × List ℚ) : ℚ := g.2.sum / (g.2.length : ℚ)

/-- The iteration of `main`'s averaging loop: the grouping map with every
value list reduced to its mean, in map iteration order. -/
def avgsOf (obs : List (ℚ × ℚ × ℚ)) : List ((ℚ × ℚ) × ℚ) :=
  (groupObs obs).map (fun g => (g.1, groupAvg g))

/-- The average SDR that `main` computes for a given weight pair, if the pair
received any observation. -/
def lookupAvg (k : ℚ × ℚ) (obs : List (ℚ × ℚ × ℚ)) : Option ℚ :=
  (findGroup k (groupObs obs)).map groupAvg

/-- The selection loop of `main`: starting from
`best_sdr = -inf, best_weights = (0, 0)`, replace the best exactly when the
entry's average is strictly greater. -/
def selectBest (gs : List ((ℚ × ℚ) × List ℚ)) : WithBot ℚ × (ℚ × ℚ) :=
  gs.foldl (fun best g =>
    let avg_sdr := groupAvg g
    if best.1 < (avg_sdr : WithBot ℚ) then ((avg_sdr : WithBot ℚ), g.1) else best)
    (⊥, (0, 0))

/-- The whole aggregation phase of `main` on the collected observations. -/
def mainAggregate (obs : List (ℚ × ℚ × ℚ)) : WithBot ℚ × (ℚ × ℚ) :=
  selectBest (groupObs obs)

/-- Generic step of the selection fold, acting on `(key, average)` pairs. -/
def selectStep (b : WithBot ℚ × (ℚ × ℚ)) (p : (ℚ × ℚ) × ℚ) :
    WithBot ℚ × (ℚ × ℚ) :=
  if b.1 < (p.2 : WithBot ℚ) then ((p.2 : WithBot ℚ), p.1) else b

/-- Supremum of the averages of a `(key, average)` list, `⊥` when empty. -/
def supVals (l : List ((ℚ × ℚ) × ℚ)) : WithBot ℚ :=
  l.foldr (fun p acc => (p.2 : WithBot ℚ) ⊔ acc) ⊥

/-- Unfolding of one batch element of `sdr`, shared by several results. -/
theorem sdr_getD_eq (references estimates : List Sig)
    (hlen : estimates.length = references.length) (b : ℕ)
    (hb : b < references.length) :
    (sdr references estimates).getD b 0 =
      10 * Real.logb 10
        ((((sum2 (sq2 (references.getD b [])) + delta) /
          (sum2 (sq2 (sub2 (references.getD b []) (estimates.getD b []))) + delta) : ℚ) : ℝ)) := by
  have hb2 : b < estimates.length := hlen ▸ hb
  have hlen2 : (sdr references estimates).length = references.length := by
    simp [sdr, hlen]
  rw [List.getD_eq_getElem _ _ (by rw [hlen2]; exact hb),
      List.getD_eq_getElem _ _ hb, List.getD_eq_getElem _ _ hb2]
  simp [sdr, List.getElem_zipWith, List.getElem_map]

/-- Claim C1: for every pair of equal-shaped 3-D inputs (batch, channels,
samples), `sdr` returns, per batch element, exactly
`10 * log10((S_ref + 1e-7) / (S_err + 1e-7))`, where `S_ref` is the sum of
squared reference samples over the channel and sample axes and `S_err` is the
sum of squared elementwise differences (reference minus estimate) over the
same axes. -/
theorem C1_sdr_formula (references estimates : List Sig)
    (hlen : estimates.length = references.length) (b : ℕ)
    (hb : b < references.length) :
    (sdr references estimates).getD b 0 =
      10 * Real.logb 10
        ((((sum2 (sq2 (references.getD b [])) + delta) /
          (sum2 (sq2 (sub2 (references.getD b []) (estimates.getD b []))) + delta) : ℚ) : ℝ)) :=
  sdr_getD_eq references estimates hlen b hb

/-- Witness for C1 at the concrete batch `[[[1, 2]]]` versus `[[[0, 1]]]`. -/
theorem C1_sdr_formula_witness :
    (([[[0, 1]]] : List Sig).length = ([[[1, 2]]] : List Sig).length) ∧
    0 < ([[[1, 2]]] : List Sig).length ∧
    (sdr [[[1, 2]]] [[[0, 1]]]).getD 0 0 =
      10 * Real.logb 10
        ((((sum2 (sq2 (([[[1, 2]]] : List Sig).getD 0 [])) + delta) /
          (sum2 (sq2 (sub2 (([[[1, 2]]] : List Sig).getD 0 [])
            (([[[0, 1]]] : List Sig).getD 0 []))) + delta) : ℚ) : ℝ)) :=
  ⟨rfl, by decide, C1_sdr_formula [[[1, 2]]] [[[0, 1]]] rfl 0 (by decide)⟩

/-- The total energy of a 2-D signal is nonnegative. -/
theorem sum2_sq2_nonneg (x : Sig) : 0 ≤ sum2 (sq2 x) := by
  unfold sum2 sq2
  rw [List.map_map]
  refine List.sum_nonneg ?_
  intro a ha
  obtain ⟨row, _, rfl⟩ := List.mem_map.mp ha
  refine List.sum_nonneg ?_
  intro v hv
  obtain ⟨w, _, rfl⟩ := List.mem_map.mp hv
  exact sq_nonneg w

/-- Subtracting a row from itself yields a row of zeros. -/
theorem zipWith_sub_self (row : List ℚ) :
    List.zipWith (fun a b => a - b) row row = row.map (fun _ => (0 : ℚ)) := by
  induction row with
  | nil => rfl
  | cons a t ih => simp [ih]

/-- Subtracting a 2-D signal from itself yields all zeros. -/
theorem sub2_self (r : Sig) :
    sub2 r r = r.map (List.map (fun _ => (0 : ℚ))) := by
  induction r with
  | nil => rfl
  | cons row t ih =>
    simp only [sub2] at ih ⊢
    rw [List.zipWith_cons_cons, zipWith_sub_self row, ih, List.map_cons]

/-- The error energy of a signal against itself is zero. -/
theorem sum2_sq2_sub2_self (r : Sig) : sum2 (sq2 (sub2 r r)) = 0 := by
  rw [sub2_self]
  unfold sum2 sq2
  simp only [List.map_map, Function.comp_def]
  norm_num

/-- Claim C7 (amended): for every pair of equal reference and estimate
signals, `sdr` returns per batch element the value
`10 * log10((S_ref + ε) / ε)` with `ε = 1e-7`; the log argument is strictly
positive, so in the real-valued model the result is a well-defined finite
real (never the logarithm of zero); the value is bounded above by
`10 * log10(1/ε)` whenever the per-batch reference energy is at most
`1 − ε`, and it strictly exceeds that bound whenever the reference energy is
larger.  (The unconditional bound of the original claim is refuted by
`C7_sdr_bound_counterexample`.) -/
theorem C7_sdr_equal_signals (references : List Sig) (b : ℕ)
    (hb : b < references.length) :
    (sdr references references).getD b 0 =
      10 * Real.logb 10
        ((((sum2 (sq2 (references.getD b [])) + delta) / delta : ℚ) : ℝ)) ∧
    (0 : ℝ) < (((sum2 (sq2 (references.getD b [])) + delta) / delta : ℚ) : ℝ) ∧
    (sum2 (sq2 (references.getD b [])) ≤ 1 - delta →
      (sdr references references).getD b 0 ≤
        10 * Real.logb 10 (((1 / delta : ℚ) : ℝ))) ∧
    (1 - delta < sum2 (sq2 (references.getD b [])) →
      10 * Real.logb 10 (((1 / delta : ℚ) : ℝ)) <
        (sdr references references).getD b 0) := by
  have hδ : (0 : ℚ) < delta := by norm_num [delta]
  have hS : 0 ≤ sum2 (sq2 (references.getD b [])) := sum2_sq2_nonneg _
  have heq : (sdr references references).getD b 0 =
      10 * Real.logb 10
        ((((sum2 (sq2 (references.getD b [])) + delta) / delta : ℚ) : ℝ)) := by
    rw [sdr_getD_eq references references rfl b hb, sum2_sq2_sub2_self, zero_add]
  have hratpos : (0 : ℚ) < (sum2 (sq2 (references.getD b [])) + delta) / delta :=
    div_pos (by linarith) hδ
  have hpos : (0 : ℝ) <
      (((sum2 (sq2 (references.getD b [])) + delta) / delta : ℚ) : ℝ) := by
    exact_mod_cast hratpos
  have hpos1 : (0 : ℝ) < ((1 / delta : ℚ) : ℝ) := by
    have h1 : (0 : ℚ) < 1 / delta := by norm_num [delta]
    exact_mod_cast h1
  refine ⟨heq, hpos, ?_, ?_⟩
  · intro hE
    rw [heq]
    have hnum : sum2 (sq2 (references.getD b [])) + delta ≤ 1 := by linarith
    have hratle : (sum2 (sq2 (references.getD b [])) + delta) / delta ≤
        1 / delta := by gcongr
    have hcast : (((sum2 (sq2 (references.getD b [])) + delta) / delta : ℚ) : ℝ) ≤
        ((1 / delta : ℚ) : ℝ) := by exact_mod_cast hratle
    have hlog := Real.logb_le_logb_of_le (by norm_num : (1 : ℝ) < 10) hpos hcast
    linarith
  · intro hE
    rw [heq]
    have hratlt : (1 / delta : ℚ) <
        (sum2 (sq2 (references.getD b [])) + delta) / delta := by
      rw [div_lt_div_iff_of_pos_right hδ]
      linarith
    have hcast : ((1 / delta : ℚ) : ℝ) <
        (((sum2 (sq2 (references.getD b [])) + delta) / delta : ℚ) : ℝ) := by
      exact_mod_cast hratlt
    have hlog := Real.logb_lt_logb (by norm_num : (1 : ℝ) < 10) hpos1 hcast
    linarith

/-- Counterexample to C7 as stated: for the equal pair
`references = estimates = [[[2]]]` (one batch element, one channel, one
sample of value 2, reference energy 4), `sdr` returns
`10 * log10((4 + ε) / ε)`, which is strictly greater than the claimed bound
`10 * log10(1/ε)`. -/
theorem C7_sdr_bound_counterexample :
    10 * Real.logb 10 (((1 / delta : ℚ) : ℝ)) <
      (sdr [[[2]]] [[[2]]]).getD 0 0 := by
  have h4 : sum2 (sq2 (([[[2]]] : List Sig).getD 0 [])) = 4 := by
    with_unfolding_all decide
  have h0 : sum2 (sq2 (sub2 (([[[2]]] : List Sig).getD 0 [])
      (([[[2]]] : List Sig).getD 0 []))) = 0 := by
    with_unfolding_all decide
  have heq := sdr_getD_eq [[[2]]] [[[2]]] rfl 0 (by decide)
  rw [h4, h0, zero_add] at heq
  rw [heq]
  have hpos : (0 : ℝ) < ((1 / delta : ℚ) : ℝ) := by
    have : (0 : ℚ) < 1 / delta := by norm_num [delta]
    exact_mod_cast this
  have hlt : ((1 / delta : ℚ) : ℝ) < (((4 + delta) / delta : ℚ) : ℝ) := by
    have : (1 / delta : ℚ) < (4 + delta) / delta := by
      rw [div_lt_div_iff_of_pos_right (by norm_num [delta] : (0:ℚ) < delta)]
      norm_num [delta]
    exact_mod_cast this
  have hlog := Real.logb_lt_logb (by norm_num : (1 : ℝ) < 10) hpos hlt
  linarith

/-- Witness for the amended C7 at the concrete all-zero reference
`[[[0]]]`: the value formula and positivity hold, and since the reference
energy 0 is at most `1 − ε`, the bound implication applies concretely. -/
theorem C7_sdr_equal_signals_witness :
    (0 < ([[[0]]] : List Sig).length) ∧
    (sum2 (sq2 (([[[0]]] : List Sig).getD 0 [])) ≤ 1 - delta) ∧
    ((sdr [[[0]]] [[[0]]]).getD 0 0 =
      10 * Real.logb 10
        ((((sum2 (sq2 (([[[0]]] : List Sig).getD 0 [])) + delta) / delta : ℚ) : ℝ)) ∧
    (0 : ℝ) <
      (((sum2 (sq2 (([[[0]]] : List Sig).getD 0 [])) + delta) / delta : ℚ) : ℝ) ∧
    (sdr [[[0]]] [[[0]]]).getD 0 0 ≤
      10 * Real.logb 10 (((1 / delta : ℚ) : ℝ))) :=
  ⟨by decide, by with_unfolding_all decide,
   (C7_sdr_equal_signals [[[0]]] 0 (by decide)).1,
   (C7_sdr_equal_signals [[[0]]] 0 (by decide)).2.1,
   (C7_sdr_equal_signals [[[0]]] 0 (by decide)).2.2.1
     (by with_unfolding_all decide)⟩

/-- Claim C8: for every pair of 2-D signals (channels × samples) whose sample
counts may differ, `get_sdr` computes the SDR over the length-`n` prefixes of
both signals where `n` is the minimum of the two sample counts; every trimmed
row has exactly length `n` (all accesses stay in range in the list model). -/
theorem C8_get_sdr_trims (original_signal model_signal : Sig) (m1 m2 : ℕ)
    (h1 : ∀ r ∈ original_signal, r.length = m1)
    (h2 : ∀ r ∈ model_signal, r.length = m2)
    (hne1 : original_signal ≠ []) (hne2 : model_signal ≠ []) :
    get_sdr original_signal model_signal =
      sdr [original_signal.map (List.take (min m1 m2))]
          [model_signal.map (List.take (min m1 m2))] ∧
    (∀ r ∈ original_signal.map (List.take (min m1 m2)), r.length = min m1 m2) ∧
    (∀ r ∈ model_signal.map (List.take (min m1 m2)), r.length = min m1 m2) := by
  have hs1 : shape1 original_signal = m1 := by
    cases original_signal with
    | nil => exact absurd rfl hne1
    | cons r t => exact h1 r (List.mem_cons_self r t)
  have hs2 : shape1 model_signal = m2 := by
    cases model_signal with
    | nil => exact absurd rfl hne2
    | cons r t => exact h2 r (List.mem_cons_self r t)
  refine ⟨?_, ?_, ?_⟩
  · unfold get_sdr
    rw [hs1, hs2]
  · intro r hr
    obtain ⟨row, hrow, rfl⟩ := List.mem_map.mp hr
    have := h1 row hrow
    rw [List.length_take, this]
    omega
  · intro r hr
    obtain ⟨row, hrow, rfl⟩ := List.mem_map.mp hr
    have := h2 row hrow
    rw [List.length_take, this]
    omega

/-- Witness for C8: reference rows of length 100 against candidate rows of
length 97; the evaluation length is `min 100 97 = 97`. -/
theorem C8_get_sdr_trims_witness :
    (∀ r ∈ [List.replicate 100 (1 : ℚ)], r.length = 100) ∧
    (∀ r ∈ [List.replicate 97 (0 : ℚ)], r.length = 97) ∧
    ([List.replicate 100 (1 : ℚ)] : Sig) ≠ [] ∧
    ([List.replicate 97 (0 : ℚ)] : Sig) ≠ [] ∧
    min 100 97 = 97 ∧
    (get_sdr [List.replicate 100 (1 : ℚ)] [List.replicate 97 (0 : ℚ)] =
      sdr [([List.replicate 100 (1 : ℚ)] : Sig).map (List.take (min 100 97))]
          [([List.replicate 97 (0 : ℚ)] : Sig).map (List.take (min 100 97))] ∧
    (∀ r ∈ ([List.replicate 100 (1 : ℚ)] : Sig).map (List.take (min 100 97)),
      r.length = min 100 97) ∧
    (∀ r ∈ ([List.replicate 97 (0 : ℚ)] : Sig).map (List.take (min 100 97)),
      r.length = min 100 97)) :=
  ⟨by simp, by simp, by simp, by simp, by decide,
   C8_get_sdr_trims [List.replicate 100 (1 : ℚ)] [List.replicate 97 (0 : ℚ)]
     100 97 (by simp) (by simp) (by simp) (by simp)⟩

/-- Claim C2: for every weight pair `(w1, w2)` processed by the track
evaluator, the candidate signal is built as: low-pass filter the normalized
weighted average `(w1*A + w2*B)/(w1+w2)` of the two model signals at cutoff
10000 Hz, multiply that low-passed result (and only it) by the gain factor
1.01055, high-pass filter model signal B alone (not the blend) at the same
10000 Hz cutoff, and sum the two filtered parts.  Stated for an arbitrary
external filter implementation `lr_filter` and a track whose files agree on
one sample rate `sr`. -/
theorem C2_candidate_construction (lr_filter : Sig → ℚ → FilterKind → ℕ → Sig)
    (original_vocals original_other : Sig) (sr : ℕ) (A B : Sig)
    (ws : List (ℚ × ℚ)) :
    process_track lr_filter original_vocals original_other sr sr
        [(A, sr), (B, sr)] ws =
      Except.ok (ws.map (fun p =>
        (p.1, p.2,
          (get_sdr original_vocals
            (add2
              (mulc (lr_filter
                (divc (add2 (scale p.1 A) (scale p.2 B)) (p.1 + p.2))
                10000 FilterKind.lowpass sr) 1.01055)
              (lr_filter B 10000 FilterKind.highpass sr))).headD 0))) := by
  have hd : (sr :: sr :: List.map Prod.snd [(A, sr), (B, sr)]).dedup = [sr] := by
    simp
  simp only [process_track, hd, List.length_singleton, lt_irrefl, if_false]
  rfl

/-- Claim C4: for every track whose loaded files carry more than one distinct
sample rate, the track evaluator raises an error whose payload lists exactly
the distinct sample rates found, sorted in ascending order; if all loaded
files share one sample rate, no such error is raised. -/
theorem C4_sample_rate_check (lr_filter : Sig → ℚ → FilterKind → ℕ → Sig)
    (original_vocals original_other : Sig) (sr1 sr2 : ℕ)
    (models : List (Sig × ℕ)) (ws : List (ℚ × ℚ)) :
    ((∃ a ∈ sr1 :: sr2 :: models.map Prod.snd,
        ∃ b ∈ sr1 :: sr2 :: models.map Prod.snd, a ≠ b) →
      ∃ L, process_track lr_filter original_vocals original_other sr1 sr2
            models ws = Except.error L ∧
          L.Sorted (· ≤ ·) ∧ L.Nodup ∧
          ∀ r : ℕ, r ∈ L ↔ r ∈ sr1 :: sr2 :: models.map Prod.snd) ∧
    ((∀ a ∈ sr1 :: sr2 :: models.map Prod.snd,
        ∀ b ∈ sr1 :: sr2 :: models.map Prod.snd, a = b) →
      ∃ out, process_track lr_filter original_vocals original_other sr1 sr2
          models ws = Except.ok out) := by
  constructor
  · rintro ⟨a, ha, b, hb, hab⟩
    have ha2 : a ∈ (sr1 :: sr2 :: models.map Prod.snd).dedup := List.mem_dedup.mpr ha
    have hb2 : b ∈ (sr1 :: sr2 :: models.map Prod.snd).dedup := List.mem_dedup.mpr hb
    have hlen : 1 < (sr1 :: sr2 :: models.map Prod.snd).dedup.length := by
      rcases hshape : (sr1 :: sr2 :: models.map Prod.snd).dedup with _ | ⟨x, _ | ⟨y, t⟩⟩
      · rw [hshape] at ha2
        simp at ha2
      · rw [hshape] at ha2 hb2
        simp at ha2 hb2
        exact absurd (ha2.trans hb2.symm) hab
      · simp
    refine ⟨((sr1 :: sr2 :: models.map Prod.snd).dedup).insertionSort (· ≤ ·),
      ?_, ?_, ?_, ?_⟩
    · simp only [process_track]
      rw [if_pos hlen]
    · exact List.sorted_insertionSort _ _
    · exact ((List.perm_insertionSort _ _).nodup_iff).mpr (List.nodup_dedup _)
    · intro r
      rw [List.mem_insertionSort, List.mem_dedup]
  · intro hall
    have hlen : ¬ 1 < (sr1 :: sr2 :: models.map Prod.snd).dedup.length := by
      intro hl
      rcases hshape : (sr1 :: sr2 :: models.map Prod.snd).dedup with _ | ⟨x, _ | ⟨y, t⟩⟩
      · rw [hshape] at hl
        simp at hl
      · rw [hshape] at hl
        simp at hl
      · have hnd := List.nodup_dedup (sr1 :: sr2 :: models.map Prod.snd)
        rw [hshape] at hnd
        have hxy : x ≠ y := by
          intro h
          rw [h] at hnd
          simp at hnd
        have hx : x ∈ (sr1 :: sr2 :: models.map Prod.snd).dedup := by
          rw [hshape]
          simp
        have hy : y ∈ (sr1 :: sr2 :: models.map Prod.snd).dedup := by
          rw [hshape]
          simp
        exact hxy (hall x (List.mem_dedup.mp hx) y (List.mem_dedup.mp hy))
    simp only [process_track, if_neg hlen]
    exact ⟨_, rfl⟩

/-- Witness for C4: a mismatched track (rates 44100 and 48000) produces the
sorted distinct error payload, and a consistent track (all 44100) does not. -/
theorem C4_sample_rate_check_witness :
    (∃ L, process_track (fun s _ _ _ => s) [] [] 44100 48000 [] [] =
        Except.error L ∧ L.Sorted (· ≤ ·) ∧ L.Nodup ∧
        ∀ r : ℕ, r ∈ L ↔ r ∈ [44100, 48000]) ∧
    (∃ out, process_track (fun s _ _ _ => s) [] [] 44100 44100 [] [] =
        Except.ok out) :=
  ⟨(C4_sample_rate_check (fun s _ _ _ => s) [] [] 44100 48000 [] []).1
     (by decide),
   (C4_sample_rate_check (fun s _ _ _ => s) [] [] 44100 44100 [] []).2
     (by decide)⟩

/-- Claim C3: weight-pair generation with step 1 over the closed range [0, 10]
produces exactly 11 pairs of the form `(w, 10 − w)`; every generated pair has
components summing to exactly 10, and the boundary pairs `(0, 10)` and
`(10, 0)` are both included. -/
theorem C3_weight_grid :
    weight_combinations.length = 11 ∧
    (∀ p ∈ weight_combinations, p.2 = 10 - p.1 ∧ p.1 + p.2 = 10) ∧
    ((0 : ℚ), (10 : ℚ)) ∈ weight_combinations ∧
    ((10 : ℚ), (0 : ℚ)) ∈ weight_combinations :=
  ⟨by with_unfolding_all decide, by with_unfolding_all decide,
   by with_unfolding_all decide, by with_unfolding_all decide⟩

/-- Witness for C3 at the concrete grid pair `(3, 7)`. -/
theorem C3_weight_grid_witness :
    (((3 : ℚ), (7 : ℚ)) ∈ weight_combinations) ∧
    ((7 : ℚ) = 10 - 3 ∧ (3 : ℚ) + 7 = 10) :=
  ⟨by with_unfolding_all decide,
   C3_weight_grid.2.1 (3, 7) (by with_unfolding_all decide)⟩

/-- Claim C9: for every weight pair generated by the aggregator's grid, the
normalizing divisor `w1 + w2` used in the track evaluator's weighted average
equals 10 and is therefore nonzero, so the blend normalization never divides
by zero for any grid-generated pair. -/
theorem C9_blend_divisor :
    ∀ p ∈ weight_combinations, p.1 + p.2 = 10 ∧ p.1 + p.2 ≠ 0 := by
  with_unfolding_all decide

/-- Witness for C9 at the concrete grid pair `(0, 10)`. -/
theorem C9_blend_divisor_witness :
    (((0 : ℚ), (10 : ℚ)) ∈ weight_combinations) ∧
    ((0 : ℚ) + 10 = 10 ∧ (0 : ℚ) + 10 ≠ 0) :=
  ⟨by with_unfolding_all decide,
   C9_blend_divisor (0, 10) (by with_unfolding_all decide)⟩

/-- The value list stored for key `k` in a grouping map, if any. -/
def valsAt (k : ℚ × ℚ) (m : List ((ℚ × ℚ) × List ℚ)) : Option (List ℚ) :=
  (findGroup k m).map Prod.snd

/-- Specification-side helper: append new values to an optional stored list,
creating it when absent and the new values are nonempty. -/
def opAppend : Option (List ℚ) → List ℚ → Option (List ℚ)
  | none, [] => none
  | none, w :: ws => some (w :: ws)
  | some vs, ws => some (vs ++ ws)

/-- `addObs` on a head entry with a different key just walks past it. -/
theorem addObs_cons_of_ne (g : (ℚ × ℚ) × List ℚ) (t : List ((ℚ × ℚ) × List ℚ))
    (k : ℚ × ℚ) (v : ℚ) (hg : g.1 ≠ k) :
    addObs (g :: t) k v = g :: addObs t k v := by
  have hhead : List.find? (fun x => decide (x.1 = k)) (g :: t) =
      List.find? (fun x => decide (x.1 = k)) t :=
    List.find?_cons_of_neg t (by simp [hg])
  simp only [addObs, findGroup]
  by_cases h : (t.find? (fun x => decide (x.1 = k))).isSome
  · rw [if_pos (by rw [hhead]; exact h), if_pos h, List.map_cons, if_neg hg]
  · rw [if_neg (by rw [hhead]; exact h), if_neg h, List.cons_append]

/-- `addObs` on a head entry with the matching key appends there. -/
theorem addObs_cons_of_eq (g : (ℚ × ℚ) × List ℚ) (t : List ((ℚ × ℚ) × List ℚ))
    (k : ℚ × ℚ) (v : ℚ) (hg : g.1 = k) :
    addObs (g :: t) k v =
      (g.1, g.2 ++ [v]) ::
        t.map (fun x => if x.1 = k then (x.1, x.2 ++ [v]) else x) := by
  have hhead : List.find? (fun x => decide (x.1 = k)) (g :: t) = some g :=
    List.find?_cons_of_pos t (by simp [hg])
  simp only [addObs, findGroup]
  rw [if_pos (by rw [hhead]; rfl), List.map_cons, if_pos hg]

/-- Updating the entries with key `k` does not affect lookups at `k2 ≠ k`. -/
theorem find?_map_upd (t : List ((ℚ × ℚ) × List ℚ)) (k k2 : ℚ × ℚ) (v : ℚ)
    (hne : k2 ≠ k) :
    (t.map (fun x => if x.1 = k then (x.1, x.2 ++ [v]) else x)).find?
        (fun g => decide (g.1 = k2)) =
      t.find? (fun g => decide (g.1 = k2)) := by
  induction t with
  | nil => rfl
  | cons x t ih =>
    rw [List.map_cons]
    by_cases hx : x.1 = k2
    · have hxk : x.1 ≠ k := by rw [hx]; exact hne
      rw [if_neg hxk]
      rw [List.find?_cons_of_pos _ (by simp [hx]),
          List.find?_cons_of_pos _ (by simp [hx])]
    · rw [List.find?_cons_of_neg _
            (by by_cases h : x.1 = k <;> simp [h, hx, Ne.symm hne]),
          List.find?_cons_of_neg _
            (by by_cases h : x.1 = k <;> simp [h, hx, Ne.symm hne])]
      exact ih

/-- Looking up the key just added to the grouping map sees the new value
appended to whatever was stored before. -/
theorem valsAt_addObs_same (m : List ((ℚ × ℚ) × List ℚ)) (k : ℚ × ℚ) (v : ℚ) :
    valsAt k (addObs m k v) = some ((valsAt k m).getD [] ++ [v]) := by
  induction m with
  | nil => simp [valsAt, addObs, findGroup]
  | cons g t ih =>
    by_cases hg : g.1 = k
    · rw [addObs_cons_of_eq g t k v hg]
      simp only [valsAt, findGroup]
      rw [List.find?_cons_of_pos _ (by simp [hg]),
          List.find?_cons_of_pos _ (by simp [hg])]
      rfl
    · rw [addObs_cons_of_ne g t k v hg]
      simp only [valsAt, findGroup] at ih ⊢
      rw [List.find?_cons_of_neg _ (by simp [hg]),
          List.find?_cons_of_neg _ (by simp [hg])]
      exact ih

/-- Adding an observation under key `k` does not affect lookups at `k2 ≠ k`. -/
theorem valsAt_addObs_ne (m : List ((ℚ × ℚ) × List ℚ)) (k : ℚ × ℚ) (v : ℚ)
    (k2 : ℚ × ℚ) (hne : k2 ≠ k) :
    valsAt k2 (addObs m k v) = valsAt k2 m := by
  induction m with
  | nil =>
    have : k ≠ k2 := Ne.symm hne
    simp [valsAt, addObs, findGroup, this]
  | cons g t ih =>
    by_cases hg : g.1 = k
    · rw [addObs_cons_of_eq g t k v hg]
      simp only [valsAt, findGroup]
      have hgk2 : g.1 ≠ k2 := by rw [hg]; exact Ne.symm hne
      rw [List.find?_cons_of_neg _ (by simp [hgk2]),
          List.find?_cons_of_neg _ (by simp [hgk2]),
          find?_map_upd t k k2 v hne]
    · rw [addObs_cons_of_ne g t k v hg]
      by_cases hg2 : g.1 = k2
      · simp only [valsAt, findGroup]
        rw [List.find?_cons_of_pos _ (by simp [hg2]),
            List.find?_cons_of_pos _ (by simp [hg2])]
      · simp only [valsAt, findGroup] at ih ⊢
        rw [List.find?_cons_of_neg _ (by simp [hg2]),
            List.find?_cons_of_neg _ (by simp [hg2])]
        exact ih

/-- Folding observations into a grouping map: the values stored at `k` are
whatever was there before, followed by the values of the folded observations
whose key is `k`, in order. -/
theorem valsAt_foldl (obs : List (ℚ × ℚ × ℚ)) :
    ∀ (m : List ((ℚ × ℚ) × List ℚ)) (k : ℚ × ℚ),
    valsAt k (obs.foldl (fun acc o => addObs acc (obsKey o) (obsVal o)) m) =
      opAppend (valsAt k m)
        ((obs.filter (fun o => decide (obsKey o = k))).map obsVal) := by
  induction obs with
  | nil =>
    intro m k
    simp only [List.foldl_nil, List.filter_nil, List.map_nil]
    cases valsAt k m <;> simp [opAppend]
  | cons o t ih =>
    intro m k
    simp only [List.foldl_cons]
    rw [ih]
    by_cases hk : obsKey o = k
    · have h1 : valsAt k (addObs m (obsKey o) (obsVal o)) =
          some ((valsAt k m).getD [] ++ [obsVal o]) := by
        rw [hk]
        exact valsAt_addObs_same m k (obsVal o)
      rw [h1, List.filter_cons_of_pos (by simp [hk]), List.map_cons]
      cases valsAt k m <;> simp [opAppend]
    · rw [valsAt_addObs_ne m (obsKey o) (obsVal o) k (Ne.symm hk),
          List.filter_cons_of_neg (by simp [hk])]

/-- The values recorded in the grouping map under key `k` are exactly the
values of the observations with key `k`, in collection order. -/
theorem valsAt_groupObs (obs : List (ℚ × ℚ × ℚ)) (k : ℚ × ℚ) :
    valsAt k (groupObs obs) =
      opAppend none ((obs.filter (fun o => decide (obsKey o = k))).map obsVal) := by
  unfold groupObs
  rw [valsAt_foldl]
  rfl

/-- The average of a permuted value list is unchanged (same sum, same
length). -/
theorem opAppend_none_map_avg (l1 l2 : List ℚ) (hp : l1.Perm l2) :
    (opAppend none l1).map (fun vs => vs.sum / (vs.length : ℚ)) =
      (opAppend none l2).map (fun vs => vs.sum / (vs.length : ℚ)) := by
  cases l1 with
  | nil =>
    have h2 : l2 = [] := hp.symm.eq_nil
    rw [h2]
  | cons a t =>
    cases l2 with
    | nil => exact absurd hp.eq_nil (by simp)
    | cons b s =>
      simp only [opAppend, Option.map]
      rw [hp.sum_eq, hp.length_eq]

/-- `lookupAvg` through the stored value list. -/
theorem lookupAvg_eq (k : ℚ × ℚ) (obs : List (ℚ × ℚ × ℚ)) :
    lookupAvg k obs =
      (valsAt k (groupObs obs)).map (fun vs => vs.sum / (vs.length : ℚ)) := by
  unfold lookupAvg valsAt groupAvg
  cases findGroup k (groupObs obs) <;> rfl

/-- Claim C5: for every fixed multiset of (weight-pair, sdr) observations,
the per-weight-pair average SDR computed by the aggregator is the same for
every ordering (permutation) in which the observations are collected; the
final averages do not depend on the order in which tracks complete. -/
theorem C5_order_invariance (obs1 obs2 : List (ℚ × ℚ × ℚ))
    (hperm : obs1.Perm obs2) (k : ℚ × ℚ) :
    lookupAvg k obs1 = lookupAvg k obs2 := by
  rw [lookupAvg_eq, lookupAvg_eq, valsAt_groupObs, valsAt_groupObs]
  exact opAppend_none_map_avg _ _ ((hperm.filter _).map _)

/-- Witness for C5 on a concrete two-element observation list and its
reversal. -/
theorem C5_order_invariance_witness :
    (([((0 : ℚ), (10 : ℚ), (1 : ℚ)), ((1 : ℚ), (9 : ℚ), (2 : ℚ))]).Perm
      [((1 : ℚ), (9 : ℚ), (2 : ℚ)), ((0 : ℚ), (10 : ℚ), (1 : ℚ))]) ∧
    lookupAvg ((0 : ℚ), (10 : ℚ))
        [((0 : ℚ), (10 : ℚ), (1 : ℚ)), ((1 : ℚ), (9 : ℚ), (2 : ℚ))] =
      lookupAvg ((0 : ℚ), (10 : ℚ))
        [((1 : ℚ), (9 : ℚ), (2 : ℚ)), ((0 : ℚ), (10 : ℚ), (1 : ℚ))] :=
  ⟨by with_unfolding_all decide,
   C5_order_invariance _ _ (by with_unfolding_all decide) ((0 : ℚ), (10 : ℚ))⟩

/-- After one selection step the running best is the sup of old best and the
candidate average. -/
theorem selectStep_fst (b : WithBot ℚ × (ℚ × ℚ)) (p : (ℚ × ℚ) × ℚ) :
    (selectStep b p).1 = b.1 ⊔ (p.2 : WithBot ℚ) := by
  unfold selectStep
  by_cases h : b.1 < (p.2 : WithBot ℚ)
  · rw [if_pos h]
    exact (sup_eq_right.mpr h.le).symm
  · rw [if_neg h]
    exact (sup_eq_left.mpr (not_lt.mp h)).symm

/-- `supVals` on a cons. -/
theorem supVals_cons (p : (ℚ × ℚ) × ℚ) (l : List ((ℚ × ℚ) × ℚ)) :
    supVals (p :: l) = (p.2 : WithBot ℚ) ⊔ supVals l := rfl

/-- The selection fold's running best after the whole list is the sup of the
initial best and all candidate averages. -/
theorem selGo_fst (l : List ((ℚ × ℚ) × ℚ)) :
    ∀ b, (l.foldl selectStep b).1 = b.1 ⊔ supVals l := by
  induction l with
  | nil =>
    intro b
    show b.1 = b.1 ⊔ ⊥
    rw [sup_bot_eq]
  | cons p t ih =>
    intro b
    rw [List.foldl_cons, ih, selectStep_fst, supVals_cons, sup_assoc]

/-- Every listed average is below the sup of averages. -/
theorem mem_le_supVals (l : List ((ℚ × ℚ) × ℚ)) :
    ∀ p ∈ l, (p.2 : WithBot ℚ) ≤ supVals l := by
  induction l with
  | nil =>
    intro p hp
    simp at hp
  | cons q t ih =>
    intro p hp
    rw [supVals_cons]
    rcases List.mem_cons.mp hp with rfl | hpt
    · exact le_sup_left
    · exact le_trans (ih p hpt) le_sup_right

/-- Full characterization of the strict-improvement selection fold: either no
candidate beats the initial best and nothing changes, or the fold returns the
first candidate attaining the maximum of the averages, every earlier
candidate being strictly below it. -/
theorem selGo_spec (l : List ((ℚ × ℚ) × ℚ)) :
    ∀ b : WithBot ℚ × (ℚ × ℚ),
    (supVals l ≤ b.1 ∧ l.foldl selectStep b = b) ∨
    (b.1 < supVals l ∧ ∃ l1 p l2, l = l1 ++ p :: l2 ∧
      (p.2 : WithBot ℚ) = supVals l ∧
      (l.foldl selectStep b).2 = p.1 ∧
      ∀ q ∈ l1, (q.2 : WithBot ℚ) < supVals l) := by
  induction l with
  | nil =>
    intro b
    left
    exact ⟨bot_le, rfl⟩
  | cons p0 t ih =>
    intro b
    rw [List.foldl_cons]
    rcases ih (selectStep b p0) with ⟨hle, heq⟩ |
      ⟨hlt, l1, p, l2, hsplit, hsup, hsel, hbelow⟩
    · rw [selectStep_fst] at hle
      by_cases h0 : b.1 < (p0.2 : WithBot ℚ)
      · right
        have hsupt : supVals t ≤ (p0.2 : WithBot ℚ) := by
          rwa [sup_eq_right.mpr h0.le] at hle
        have hsl : supVals (p0 :: t) = (p0.2 : WithBot ℚ) := by
          rw [supVals_cons]
          exact sup_eq_left.mpr hsupt
        refine ⟨?_, [], p0, t, rfl, ?_, ?_, ?_⟩
        · rw [hsl]
          exact h0
        · rw [hsl]
        · rw [heq]
          unfold selectStep
          rw [if_pos h0]
        · intro q hq
          simp at hq
      · left
        have hp0 : (p0.2 : WithBot ℚ) ≤ b.1 := not_lt.mp h0
        have hb2 : selectStep b p0 = b := by
          unfold selectStep
          rw [if_neg h0]
        constructor
        · rw [supVals_cons]
          refine sup_le hp0 ?_
          rwa [sup_eq_left.mpr hp0] at hle
        · rw [hb2]
          rw [hb2] at heq
          exact heq
    · right
      rw [selectStep_fst] at hlt
      have hp0lt : (p0.2 : WithBot ℚ) < supVals t := lt_of_le_of_lt le_sup_right hlt
      have hsupl : supVals (p0 :: t) = supVals t := by
        rw [supVals_cons]
        exact sup_eq_right.mpr hp0lt.le
      refine ⟨?_, p0 :: l1, p, l2, ?_, ?_, hsel, ?_⟩
      · rw [hsupl]
        exact lt_of_le_of_lt le_sup_left hlt
      · rw [hsplit, List.cons_append]
      · rw [hsupl]
        exact hsup
      · intro q hq
        rw [hsupl]
        rcases List.mem_cons.mp hq with rfl | hql
        · exact hp0lt
        · exact hbelow q hql

/-- The selection loop of `main` is the generic fold over `(key, average)`
pairs. -/
theorem selectBest_eq (gs : List ((ℚ × ℚ) × List ℚ)) :
    selectBest gs =
      (gs.map (fun g => (g.1, groupAvg g))).foldl selectStep (⊥, (0, 0)) := by
  rw [List.foldl_map]
  rfl

/-- Keys of the map after `addObs`: unchanged when the key was present,
appended at the end when new. -/
theorem addObs_keys (m : List ((ℚ × ℚ) × List ℚ)) (k : ℚ × ℚ) (v : ℚ) :
    (addObs m k v).map Prod.fst =
      if (findGroup k m).isSome then m.map Prod.fst
      else m.map Prod.fst ++ [k] := by
  unfold addObs
  by_cases h : (findGroup k m).isSome
  · rw [if_pos h, if_pos h, List.map_map]
    apply List.map_congr_left
    intro x _
    simp only [Function.comp_apply]
    by_cases hx : x.1 = k <;> simp [hx]
  · rw [if_neg h, if_neg h, List.map_append]
    rfl

/-- Folding observations preserves distinctness of the grouping-map keys. -/
theorem foldl_keys_nodup (obs : List (ℚ × ℚ × ℚ)) :
    ∀ m : List ((ℚ × ℚ) × List ℚ), (m.map Prod.fst).Nodup →
      ((obs.foldl (fun acc o => addObs acc (obsKey o) (obsVal o)) m).map
        Prod.fst).Nodup := by
  induction obs with
  | nil =>
    intro m hm
    exact hm
  | cons o t ih =>
    intro m hm
    rw [List.foldl_cons]
    apply ih
    rw [addObs_keys]
    by_cases h : (findGroup (obsKey o) m).isSome
    · rw [if_pos h]
      exact hm
    · rw [if_neg h]
      have hnone : findGroup (obsKey o) m = none :=
        Option.not_isSome_iff_eq_none.mp h
      have hk : obsKey o ∉ m.map Prod.fst := by
        intro hmem
        obtain ⟨g, hg, hgk⟩ := List.mem_map.mp hmem
        have hfind := List.find?_eq_none.mp hnone g hg
        simp [hgk] at hfind
      exact List.Nodup.append hm (List.nodup_singleton _)
        (fun a ha hb => hk ((List.mem_singleton.mp hb) ▸ ha))

/-- The keys of the grouping map are pairwise distinct. -/
theorem groupObs_keys_nodup (obs : List (ℚ × ℚ × ℚ)) :
    ((groupObs obs).map Prod.fst).Nodup :=
  foldl_keys_nodup obs [] (by simp)

/-- With distinct keys, looking up an entry's own key finds that entry. -/
theorem findGroup_of_mem (m : List ((ℚ × ℚ) × List ℚ)) :
    (m.map Prod.fst).Nodup → ∀ g ∈ m, findGroup g.1 m = some g := by
  induction m with
  | nil =>
    intro _ g hg
    simp at hg
  | cons x t ih =>
    intro hnd g hg
    rw [List.map_cons, List.nodup_cons] at hnd
    rcases List.mem_cons.mp hg with rfl | hgt
    · unfold findGroup
      rw [List.find?_cons_of_pos _ (by simp)]
    · have hx : ¬x.1 = g.1 := by
        intro he
        exact hnd.1 (he ▸ List.mem_map.mpr ⟨g, hgt, rfl⟩)
      unfold findGroup
      rw [List.find?_cons_of_neg _ (by simp [hx])]
      exact ih hnd.2 g hgt

/-- Every grouping-map entry stores exactly the values of the observations
with its key, in collection order. -/
theorem groupObs_vals (obs : List (ℚ × ℚ × ℚ)) :
    ∀ g ∈ groupObs obs,
      g.2 = (obs.filter (fun o => decide (obsKey o = g.1))).map obsVal := by
  intro g hg
  have h1 : valsAt g.1 (groupObs obs) = some g.2 := by
    unfold valsAt
    rw [findGroup_of_mem _ (groupObs_keys_nodup obs) g hg]
    rfl
  rw [valsAt_groupObs] at h1
  cases hfl : (obs.filter (fun o => decide (obsKey o = g.1))).map obsVal with
  | nil =>
    rw [hfl] at h1
    simp [opAppend] at h1
  | cons a t =>
    rw [hfl] at h1
    simp only [opAppend] at h1
    exact (Option.some_inj.mp h1).symm

/-- `addObs` never returns an empty map. -/
theorem addObs_ne_nil (m : List ((ℚ × ℚ) × List ℚ)) (k : ℚ × ℚ) (v : ℚ) :
    addObs m k v ≠ [] := by
  unfold addObs
  by_cases h : (findGroup k m).isSome
  · rw [if_pos h]
    intro hmap
    rw [List.map_eq_nil_iff] at hmap
    subst hmap
    simp [findGroup] at h
  · rw [if_neg h]
    simp

/-- Folding observations never empties a nonempty grouping map. -/
theorem foldl_addObs_ne_nil (t : List (ℚ × ℚ × ℚ)) :
    ∀ m : List ((ℚ × ℚ) × List ℚ), m ≠ [] →
      t.foldl (fun acc o => addObs acc (obsKey o) (obsVal o)) m ≠ [] := by
  induction t with
  | nil =>
    intro m hm
    exact hm
  | cons o s ih =>
    intro m _
    rw [List.foldl_cons]
    exact ih _ (addObs_ne_nil _ _ _)

/-- A nonempty observation list yields a nonempty grouping map. -/
theorem groupObs_ne_nil (obs : List (ℚ × ℚ × ℚ)) (h : obs ≠ []) :
    groupObs obs ≠ [] := by
  cases obs with
  | nil => exact absurd rfl h
  | cons o t =>
    unfold groupObs
    rw [List.foldl_cons]
    exact foldl_addObs_ne_nil t _ (addObs_ne_nil _ _ _)

/-- Claim C6: for every non-empty collection of (weight-pair, sdr)
observations, the aggregator reports for each weight pair the arithmetic mean
of all sdr values recorded for that pair (each grouping-map entry holds
exactly those values, `avgsOf` divides their sum by their count), and selects
a weight pair whose mean is maximal; when several pairs attain the same
maximal mean, the pair encountered first in iteration order over the grouping
map is selected (every earlier entry is strictly below the selected mean, so
later equal averages never displace it). -/
theorem C6_best_selection (obs : List (ℚ × ℚ × ℚ)) (hne : obs ≠ []) :
    (∀ g ∈ groupObs obs,
      g.2 = (obs.filter (fun o => decide (obsKey o = g.1))).map obsVal) ∧
    ∃ l1 p l2, avgsOf obs = l1 ++ p :: l2 ∧
      mainAggregate obs = ((p.2 : WithBot ℚ), p.1) ∧
      (∀ q ∈ avgsOf obs, q.2 ≤ p.2) ∧
      (∀ q ∈ l1, q.2 < p.2) := by
  refine ⟨groupObs_vals obs, ?_⟩
  have hgs : groupObs obs ≠ [] := groupObs_ne_nil obs hne
  have havgs : avgsOf obs ≠ [] := by
    unfold avgsOf
    intro h
    exact hgs (List.map_eq_nil_iff.mp h)
  have hsup : (⊥ : WithBot ℚ) < supVals (avgsOf obs) := by
    cases h : avgsOf obs with
    | nil => exact absurd h havgs
    | cons a t =>
      rw [supVals_cons]
      exact lt_of_lt_of_le (WithBot.bot_lt_coe a.2) le_sup_left
  have hagg : mainAggregate obs = (avgsOf obs).foldl selectStep (⊥, (0, 0)) := by
    unfold mainAggregate avgsOf
    exact selectBest_eq _
  rcases selGo_spec (avgsOf obs) (⊥, (0, 0)) with ⟨hle, _⟩ |
    ⟨_, l1, p, l2, hsplit, hsupv, hsel, hbelow⟩
  · exact absurd (lt_of_lt_of_le hsup hle) (lt_irrefl ⊥)
  · refine ⟨l1, p, l2, hsplit, ?_, ?_, ?_⟩
    · rw [hagg]
      have hfst : ((avgsOf obs).foldl selectStep (⊥, (0, 0))).1 =
          (p.2 : WithBot ℚ) := by
        rw [selGo_fst, hsupv]
        exact bot_sup_eq _
      exact Prod.ext_iff.mpr ⟨hfst, hsel⟩
    · intro q hq
      have hle2 := mem_le_supVals (avgsOf obs) q hq
      rw [← hsupv] at hle2
      exact WithBot.coe_le_coe.mp hle2
    · intro q hq
      have hlt2 := hbelow q hq
      rw [← hsupv] at hlt2
      exact WithBot.coe_lt_coe.mp hlt2

/-- Witness for C6 on the concrete observation list
`[(0, 10, 3), (1, 9, 4)]`. -/
theorem C6_best_selection_witness :
    (([((0 : ℚ), (10 : ℚ), (3 : ℚ)), ((1 : ℚ), (9 : ℚ), (4 : ℚ))] :
        List (ℚ × ℚ × ℚ)) ≠ []) ∧
    ((∀ g ∈ groupObs [((0 : ℚ), (10 : ℚ), (3 : ℚ)), ((1 : ℚ), (9 : ℚ), (4 : ℚ))],
      g.2 = ([((0 : ℚ), (10 : ℚ), (3 : ℚ)), ((1 : ℚ), (9 : ℚ), (4 : ℚ))].filter
        (fun o => decide (obsKey o = g.1))).map obsVal) ∧
    ∃ l1 p l2,
      avgsOf [((0 : ℚ), (10 : ℚ), (3 : ℚ)), ((1 : ℚ), (9 : ℚ), (4 : ℚ))] =
        l1 ++ p :: l2 ∧
      mainAggregate [((0 : ℚ), (10 : ℚ), (3 : ℚ)), ((1 : ℚ), (9 : ℚ), (4 : ℚ))] =
        ((p.2 : WithBot ℚ), p.1) ∧
      (∀ q ∈ avgsOf [((0 : ℚ), (10 : ℚ), (3 : ℚ)), ((1 : ℚ), (9 : ℚ), (4 : ℚ))],
        q.2 ≤ p.2) ∧
      (∀ q ∈ l1, q.2 < p.2)) :=
  ⟨by simp, C6_best_selection _ (by simp)⟩

/-- Claim C10: when no observations are collected, the aggregation phase does
not fail: it reports best average SDR `⊥` (the model of `float('-inf')`) and
the sentinel weight pair `(0, 0)`, which is not a member of the generated
weight grid. -/
theorem C10_empty_run :
    mainAggregate [] = (⊥, (0, 0)) ∧
    ((0 : ℚ), (0 : ℚ)) ∉ weight_combinations :=
  ⟨rfl, by with_unfolding_all decide⟩

end SdrModelComparison
